import Mathlib

/-!
# Loomwork mobile editor — verification of the draft/commit reconciliation core

A shallow embedding of the Loomwork mobile content editor:

* `src/components/mobile/github.ts` — the GitHub REST client (`parseRepo`,
  `listFiles`, `listFilesRecursive`, `getFile`, `putFile`), embedded here as
  pure functions over a modelled remote file tree, with the HTTP transport
  reduced to explicit auth/network flags and the thrown `Error` objects
  reflected as a structured error type carrying the same data (operation,
  path, HTTP status) that the source interpolates into its messages.
* `src/components/mobile/MobileApp.tsx` — the session state machine
  (`openFile`, `handleCommit`, `goBack`, `loadFiles`, the editor `onChange`
  handlers, and the debounced autosave effect), embedded as explicit
  state-passing functions on an `AppState` record mirroring the component's
  React state, plus an event-timeline semantics for the autosave timer.
* The local persistence store and the frontmatter codec live in modules
  (`storage.ts`, `mdx.ts`) that are not part of the provided sources; they
  are modelled from the spec: the draft store as a path-keyed last-write-wins
  association list, and `parseFile`/`serializeFile` as a lossless
  fenced-metadata-header codec for string/number/boolean/string-array values.

Machine integers do not occur (all numbers involved are unbounded JS array
lengths, timestamps and HTTP statuses); strings are `String`/`List Char`.
-/

namespace Loomwork

/-! ## Frontmatter values

Modelled from the spec: `mdx.ts` (`parseFile`, `serializeFile`) is not among
the provided sources.  The spec restricts round-trippable frontmatter values
to strings, numbers, booleans and string arrays, so the value type has
exactly those four constructors.  JS numbers are modelled as `Int` (the only
numeric frontmatter field the UI produces, `nav_order`, goes through
`parseInt`). -/
inductive FmValue where
  | vStr (s : String)
  | vNum (n : Int)
  | vBool (b : Bool)
  | vArr (xs : List String)
deriving DecidableEq

/-- A frontmatter mapping: string keys to `FmValue`s, in file order. -/
abbrev Frontmatter := List (String × FmValue)

/-! ## Serialization (modelled from the spec)

Modelled from the spec: the content file format is "a metadata header
(key/value mapping) followed by a body", with the requirement that
parse ∘ serialize is lossless for the supported value types.  The header is
fenced by `---` lines; keys and string values are double-quoted with
backslash escapes for backslash, newline and quote, so that arbitrary
strings survive the trip. -/

/-- Escape one character for a quoted string in the metadata header. -/
def escCh (c : Char) : List Char :=
  if c = '\\' then ['\\', '\\']
  else if c = '\n' then ['\\', 'n']
  else if c = '"' then ['\\', '"']
  else [c]

/-- Escape a character list. -/
def escL : List Char → List Char
  | [] => []
  | c :: cs => escCh c ++ escL cs

/-- A double-quoted, escaped string. -/
def quoteChars (s : List Char) : List Char :=
  '"' :: escL s ++ ['"']

/-- Render one decimal digit (`0`–`9`). -/
def digitChar (d : Nat) : Char :=
  if d = 0 then '0' else if d = 1 then '1' else if d = 2 then '2'
  else if d = 3 then '3' else if d = 4 then '4' else if d = 5 then '5'
  else if d = 6 then '6' else if d = 7 then '7' else if d = 8 then '8'
  else '9'

/-- Is this one of the ten decimal digit characters? -/
def isDigitCh (c : Char) : Bool :=
  c = '0' || c = '1' || c = '2' || c = '3' || c = '4' ||
  c = '5' || c = '6' || c = '7' || c = '8' || c = '9'

/-- Numeric value of a digit character. -/
def digitVal (c : Char) : Nat :=
  if c = '0' then 0 else if c = '1' then 1 else if c = '2' then 2
  else if c = '3' then 3 else if c = '4' then 4 else if c = '5' then 5
  else if c = '6' then 6 else if c = '7' then 7 else if c = '8' then 8
  else 9

/-- Decimal rendering of a natural number (most significant digit first). -/
def natChars (n : Nat) : List Char :=
  if n = 0 then ['0'] else (Nat.digits 10 n).reverse.map digitChar

/-- Decimal rendering of an integer. -/
def intChars (n : Int) : List Char :=
  if n < 0 then '-' :: natChars n.natAbs else natChars n.toNat

/-- Comma-separated quoted strings (the inside of a serialized array). -/
def arrChars : List String → List Char
  | [] => []
  | [x] => quoteChars x.toList
  | x :: xs => quoteChars x.toList ++ ',' :: arrChars xs

/-- Serialized form of one frontmatter value. -/
def valChars : FmValue → List Char
  | .vStr s => quoteChars s.toList
  | .vNum n => intChars n
  | .vBool true => ['t', 'r', 'u', 'e']
  | .vBool false => ['f', 'a', 'l', 's', 'e']
  | .vArr xs => '[' :: arrChars xs ++ [']']

/-- One header line: `"key": value` followed by a newline. -/
def entryChars (k : String) (v : FmValue) : List Char :=
  quoteChars k.toList ++ ':' :: ' ' :: valChars v ++ ['\n']

/-- All header lines, in mapping order. -/
def entriesChars : Frontmatter → List Char
  | [] => []
  | (k, v) :: fm => entryChars k v ++ entriesChars fm

/-- The `---` fence line that delimits the metadata header. -/
def fence : List Char := ['-', '-', '-', '\n']

/-- The full serialized file: fenced header, then the body verbatim. -/
def serializeChars (fm : Frontmatter) (body : List Char) : List Char :=
  fence ++ entriesChars fm ++ fence ++ body

/-- `serializeFile(frontmatter, body)` — the textual representation a commit
writes.  Modelled from the spec (`mdx.ts` is not among the sources). -/
def serializeFile (fm : Frontmatter) (body : String) : String :=
  String.mk (serializeChars fm body.toList)

/-! ## Parsing (modelled from the spec) -/

/-- Unescape the character following a backslash. -/
def unescCh (c : Char) : Char :=
  if c = 'n' then '\n' else c

/-- Parse the remainder of a quoted string (the opening quote is already
consumed); returns the decoded characters and the rest of the input. -/
def parseQuotedAux : List Char → Option (List Char × List Char)
  | [] => none
  | c :: cs =>
    if c = '\\' then
      match cs with
      | [] => none
      | d :: cs2 =>
        match parseQuotedAux cs2 with
        | some p => some (unescCh d :: p.1, p.2)
        | none => none
    else if c = '"' then some ([], cs)
    else
      match parseQuotedAux cs with
      | some p => some (c :: p.1, p.2)
      | none => none

/-- Consume a maximal run of digit characters, accumulating their value. -/
def readDigitsAux : List Char → Nat → Nat × List Char
  | [], acc => (acc, [])
  | c :: cs, acc =>
    if isDigitCh c then readDigitsAux cs (acc * 10 + digitVal c)
    else (acc, c :: cs)

/-- Parse a natural number (at least one digit required). -/
def readNat : List Char → Option (Nat × List Char)
  | [] => none
  | c :: cs =>
    if isDigitCh c then some (readDigitsAux cs (digitVal c)) else none

/-- Parse the inside of a serialized array (after the `[`), fueled. -/
def parseArr : Nat → List Char → Option (List String × List Char)
  | 0, _ => none
  | _ + 1, [] => none
  | fuel + 1, c :: cs =>
    if c = ']' then some ([], cs)
    else if c = '"' then
      match parseQuotedAux cs with
      | none => none
      | some (x, r) =>
        match r with
        | ',' :: r2 =>
          match parseArr fuel r2 with
          | none => none
          | some (xs, rest) => some (String.mk x :: xs, rest)
        | ']' :: rest => some ([String.mk x], rest)
        | _ => none
    else none

/-- Parse one frontmatter value, dispatching on the first character. -/
def parseValue (l : List Char) : Option (FmValue × List Char) :=
  match l with
  | [] => none
  | c :: cs =>
    if c = '"' then
      match parseQuotedAux cs with
      | some p => some (.vStr (String.mk p.1), p.2)
      | none => none
    else if c = '[' then
      match parseArr cs.length cs with
      | some p => some (.vArr p.1, p.2)
      | none => none
    else if c = 't' then
      if cs.take 3 = ['r', 'u', 'e'] then some (.vBool true, cs.drop 3) else none
    else if c = 'f' then
      if cs.take 4 = ['a', 'l', 's', 'e'] then some (.vBool false, cs.drop 4) else none
    else if c = '-' then
      match readNat cs with
      | some p => some (.vNum (-(p.1 : Int)), p.2)
      | none => none
    else if isDigitCh c then
      match readNat (c :: cs) with
      | some p => some (.vNum ((p.1 : Nat) : Int), p.2)
      | none => none
    else none

/-- Parse header entries until the closing fence, fueled; returns the
mapping and the remaining input (the body). -/
def parseEntries : Nat → List Char → Option (Frontmatter × List Char)
  | 0, _ => none
  | fuel + 1, l =>
    if l.take 4 = fence then some ([], l.drop 4)
    else
      match l with
      | [] => none
      | c :: cs =>
        if c = '"' then
          match parseQuotedAux cs with
          | none => none
          | some (k, r1) =>
            match r1 with
            | ':' :: ' ' :: r2 =>
              match parseValue r2 with
              | none => none
              | some (v, r3) =>
                match r3 with
                | '\n' :: r4 =>
                  match parseEntries fuel r4 with
                  | none => none
                  | some (fm, rest) => some ((String.mk k, v) :: fm, rest)
                | _ => none
            | _ => none
        else none

/-- Total parse of a file: a well-formed fenced header yields its mapping
and the body after the closing fence; anything else parses as an empty
mapping with the whole content as body. -/
def parseFileChars (l : List Char) : Frontmatter × List Char :=
  if l.take 4 = fence then
    match parseEntries ((l.drop 4).length + 1) (l.drop 4) with
    | some (fm, body) => (fm, body)
    | none => ([], l)
  else ([], l)

/-- `parseFile(content)` — splits remote content into frontmatter and body.
Modelled from the spec (`mdx.ts` is not among the sources). -/
def parseFile (s : String) : Frontmatter × String :=
  match parseFileChars s.toList with
  | (fm, b) => (fm, String.mk b)

/-! ## Local draft store

Modelled from the spec: `storage.ts` is not among the provided sources; the
spec describes it as `getDraft(path)/saveDraft/removeDraft`, keyed by path,
last-write-wins.  A draft store is an association list from paths to drafts;
`saveDraft` removes any earlier binding for the path, so at most one draft
per path ever exists. -/

/-- `Draft` — a locally persisted snapshot of in-progress edits: `{path,
content, frontmatter, savedAt}` (`savedAt` a millisecond timestamp). -/
structure Draft where
  path : String
  content : String
  frontmatter : Frontmatter
  savedAt : Nat
deriving DecidableEq

/-- The local draft store, keyed by file path. -/
abbrev DraftStore := List (String × Draft)

/-- Look up the draft for a path. -/
def getDraft : DraftStore → String → Option Draft
  | [], _ => none
  | (q, d) :: rest, p => if q = p then some d else getDraft rest p

/-- Delete the draft for a path. -/
def removeDraft : DraftStore → String → DraftStore
  | [], _ => []
  | (q, d) :: rest, p =>
    if q = p then removeDraft rest p else (q, d) :: removeDraft rest p

/-- Store a draft, superseding any earlier draft for the same path. -/
def saveDraft (ds : DraftStore) (p : String) (d : Draft) : DraftStore :=
  (p, d) :: removeDraft ds p

/-! ## Remote content store

`github.ts` talks to the GitHub contents API.  The remote repository is
modelled as a tree of named nodes; the HTTP transport is reduced to two
flags (`netOk` — fetch resolves; `authOk` — the token has access), and the
server side of each endpoint is modelled from the spec's remote-store
interface (list / read with version token / write with optimistic
concurrency check). -/

/-- `RepoFile` — a read-only listing entry `{name, path, sha, type}`. -/
inductive FType where
  | file
  | dir
deriving DecidableEq

structure RepoFile where
  name : String
  path : String
  sha : String
  type : FType
deriving DecidableEq

/-- `FileContent` — a snapshot of a file at a remote version:
`{content, sha, path, encoding}`. -/
structure FileContent where
  content : String
  sha : String
  path : String
  encoding : String
deriving DecidableEq

/-- A node of the remote repository: a file (content plus version token) or
a directory of named children. -/
inductive FsNode where
  | file (content : String) (sha : String)
  | dir (entries : List (String × FsNode))

/-- Split a character list at every `'/'`. -/
def splitSlashL : List Char → List (List Char)
  | [] => [[]]
  | c :: cs =>
    if c = '/' then [] :: splitSlashL cs
    else
      match splitSlashL cs with
      | [] => [[c]]
      | g :: gs => (c :: g) :: gs

/-- Split a path string into its slash-separated segments. -/
def splitSlash (s : String) : List String :=
  (splitSlashL s.toList).map String.mk

/-- Look up a named child in a directory's entry list. -/
def lookupEntry : List (String × FsNode) → String → Option FsNode
  | [], _ => none
  | (n, node) :: rest, s => if n = s then some node else lookupEntry rest s

/-- Resolve a segment list against a node. -/
def resolveSegs : FsNode → List String → Option FsNode
  | node, [] => some node
  | .file _ _, _ :: _ => none
  | .dir es, s :: rest =>
    match lookupEntry es s with
    | none => none
    | some n => resolveSegs n rest

/-- Resolve a slash-separated path against the repository root. -/
def resolve (fs : FsNode) (path : String) : Option FsNode :=
  resolveSegs fs (splitSlash path)

/-- The errors the client surfaces.  The source throws `Error` objects whose
messages interpolate the operation, the path and the HTTP status
(`Failed to save ${path}: ${res.status} …`); the embedding keeps that data
structurally.  `network` is a rejected `fetch`; `jsTypeError` is the
TypeError thrown when `getFile` receives a directory listing (no `content`
field to decode). -/
inductive GhError where
  | listFailed (path : String) (status : Nat)
  | getFailed (path : String) (status : Nat)
  | saveFailed (path : String) (status : Nat)
  | network
  | jsTypeError
deriving DecidableEq

/-- The spec's error taxonomy (§7): AuthError, NotFoundError, ConflictError,
NetworkError.  An error's kind is read off the HTTP status the source embeds
in its message. -/
inductive ErrKind where
  | auth
  | notFound
  | conflict
  | network
  | other
deriving DecidableEq

/-- Classify a surfaced error by the spec's taxonomy. -/
def GhError.kind : GhError → ErrKind
  | .listFailed _ s | .getFailed _ s | .saveFailed _ s =>
    if s = 401 || s = 403 then .auth
    else if s = 404 then .notFound
    else if s = 409 then .conflict
    else .other
  | .network => .network
  | .jsTypeError => .other

mutual
/-- All file entries under a node, recursing into subdirectories
(`listFilesRecursive` aggregates file entries only). -/
def listRecNode : FsNode → String → List RepoFile
  | .file _ _, _ => []
  | .dir es, path => listRecEntries es path

/-- Collect the file entries of a directory listing, recursing into child
directories exactly as `listFilesRecursive` does. -/
def listRecEntries : List (String × FsNode) → String → List RepoFile
  | [], _ => []
  | (n, node) :: rest, path =>
    (match node with
     | .file _ sha => [⟨n, path ++ "/" ++ n, sha, .file⟩]
     | .dir es => listRecEntries es (path ++ "/" ++ n)) ++ listRecEntries rest path
end

/-- `listFilesRecursive(token, owner, repo, path)`: a missing path is an
HTTP 404, which `listFiles` turns into a thrown error; a file path yields a
non-array response, which `listFiles` turns into `[]`; a directory yields
its aggregated file entries. -/
def listFilesRecursiveE (authOk netOk : Bool) (fs : FsNode) (path : String) :
    Except GhError (List RepoFile) :=
  if netOk = false then .error .network
  else if authOk = false then .error (.listFailed path 401)
  else
    match resolve fs path with
    | none => .error (.listFailed path 404)
    | some (.file _ _) => .ok []
    | some (.dir es) => .ok (listRecEntries es path)

/-- `getFile(token, owner, repo, path)`: a missing path is an HTTP 404 and a
thrown error; a file yields its decoded content and sha (the base64
transport is a reversible encoding and is modelled as the identity). -/
def getFileE (authOk netOk : Bool) (fs : FsNode) (path : String) :
    Except GhError FileContent :=
  if netOk = false then .error .network
  else if authOk = false then .error (.getFailed path 401)
  else
    match resolve fs path with
    | none => .error (.getFailed path 404)
    | some (.file content sha) => .ok ⟨content, sha, path, "base64"⟩
    | some (.dir _) => .error .jsTypeError

mutual
/-- Replace the file at a segment path with new content and token; identity
where the path does not lead to a file. -/
def updateAt : FsNode → List String → String → String → FsNode
  | .file _ _, [], content, newSha => .file content newSha
  | node, [], _, _ => node
  | .file c s, _ :: _, _, _ => .file c s
  | .dir es, seg :: rest, content, newSha => .dir (updateEntries es seg rest content newSha)

/-- Replace within a directory's entries. -/
def updateEntries : List (String × FsNode) → String → List String → String → String →
    List (String × FsNode)
  | [], _, _, _, _ => []
  | (n, node) :: tail, seg, rest, content, newSha =>
    if n = seg then (n, updateAt node rest content newSha) :: tail
    else (n, node) :: updateEntries tail seg rest content newSha
end

mutual
/-- Create a file at a segment path, creating intermediate directories. -/
def insertAt : FsNode → List String → String → String → FsNode
  | node, [], _, _ => node
  | .file c s, _ :: _, _, _ => .file c s
  | .dir es, [seg], content, newSha =>
    .dir (es ++ [(seg, .file content newSha)])
  | .dir es, seg :: rest, content, newSha =>
    match lookupEntry es seg with
    | some _ => .dir (insertEntries es seg rest content newSha)
    | none => .dir (es ++ [(seg, insertAt (.dir []) rest content newSha)])

/-- Create within a directory's entries. -/
def insertEntries : List (String × FsNode) → String → List String → String → String →
    List (String × FsNode)
  | [], _, _, _, _ => []
  | (n, node) :: tail, seg, rest, content, newSha =>
    if n = seg then (n, insertAt node rest content newSha) :: tail
    else (n, node) :: insertEntries tail seg rest content newSha
end

/-- `putFile(token, owner, repo, path, content, message, sha?)` — the
create-or-update write.  The server side follows the spec's remote-store
interface: a write carrying an expected version token is rejected with HTTP
409 when the token does not match the file's current one; a matching token
updates the file, whose new stored version token is `newFileSha` (the
response's `data.content.sha`).  The write response also describes the
commit the write created, and the client returns `data.commit.sha` — here
`newCommitSha` — which identifies the commit, not the written file: it is a
different value from `newFileSha` and is not accepted by the store as an
expected version token for the file.  A write without a token creates the
file (HTTP 422 if the path is an existing file, since GitHub requires the
sha for updates).  On a non-ok response the client throws (`saveFailed`
with the status). -/
def putFileE (authOk netOk : Bool) (newFileSha newCommitSha : String)
    (fs : FsNode) (path content : String) (shaArg : Option String) :
    Except GhError (FsNode × String) :=
  if netOk = false then .error .network
  else if authOk = false then .error (.saveFailed path 401)
  else
    match resolve fs path, shaArg with
    | some (.file _ cur), some expected =>
      if expected = cur then
        .ok (updateAt fs (splitSlash path) content newFileSha, newCommitSha)
      else .error (.saveFailed path 409)
    | some (.file _ _), none => .error (.saveFailed path 422)
    | some (.dir _), _ => .error (.saveFailed path 422)
    | none, some _ => .error (.saveFailed path 404)
    | none, none => .ok (insertAt fs (splitSlash path) content newFileSha, newCommitSha)

/-! ## `parseRepo`

`parseRepo(input)` first applies `input.replace(/\.git$/, "").replace(/\/$/, "")`
and then matches the cleaned string against
`(?:github\.com\/)?([^/]+)\/([^/]+)$`.  The embedding renders the cleaning
literally and the regex by its search semantics: positions are tried left to
right; at each position the optional `github.com/` prefix is tried greedily
first, and a capture attempt succeeds when the rest of the string from there
is exactly `⟨nonempty slash-free⟩/⟨nonempty slash-free⟩`. -/

/-- Drop one trailing `.git` (the `/\.git$/` replace). -/
def stripDotGit (l : List Char) : List Char :=
  if 4 ≤ l.length ∧ l.drop (l.length - 4) = ['.', 'g', 'i', 't'] then
    l.take (l.length - 4)
  else l

/-- Drop one trailing `/` (the `/\/$/` replace). -/
def stripTrailSlash (l : List Char) : List Char :=
  if l.getLast? = some '/' then l.dropLast else l

/-- The cleaned input the regex is matched against. -/
def cleanChars (l : List Char) : List Char :=
  stripTrailSlash (stripDotGit l)

/-- Longest slash-free run at the front of a list, and the remainder. -/
def spanNonSlash : List Char → List Char × List Char
  | [] => ([], [])
  | c :: cs =>
    if c = '/' then ([], c :: cs)
    else
      match spanNonSlash cs with
      | (p, r) => (c :: p, r)

/-- Attempt `([^/]+)\/([^/]+)$` anchored at the current position: succeeds
exactly when the rest of the input is two nonempty slash-free runs separated
by one slash. -/
def tryCapture (l : List Char) : Option (List Char × List Char) :=
  match spanNonSlash l with
  | (a, r) =>
    if a = [] then none
    else
      match r with
      | '/' :: r2 =>
        match spanNonSlash r2 with
        | (b, r3) => if b = [] ∨ r3 ≠ [] then none else some (a, b)
      | _ => none

/-- The characters of the optional `github.com/` prefix. -/
def ghPrefix : List Char := ['g', 'i', 't', 'h', 'u', 'b', '.', 'c', 'o', 'm', '/']

/-- The prefix without its trailing slash: one slash-free segment. -/
def ghSeg : List Char := ['g', 'i', 't', 'h', 'u', 'b', '.', 'c', 'o', 'm']

/-- One match attempt at the current position: the optional prefix is tried
(greedily) before the bare capture. -/
def tryAt (l : List Char) : Option (List Char × List Char) :=
  if l.take 11 = ghPrefix then
    match tryCapture (l.drop 11) with
    | some p => some p
    | none => tryCapture l
  else tryCapture l

/-- Regex search: try each start position from the left. -/
def matchScan : List Char → Option (List Char × List Char)
  | [] => none
  | c :: cs =>
    match tryAt (c :: cs) with
    | some p => some p
    | none => matchScan cs

/-- `parseRepo(input)` — `none` models the thrown
`Invalid repo format` error. -/
def parseRepo (input : String) : Option (String × String) :=
  match matchScan (cleanChars input.toList) with
  | some (a, b) => some (String.mk a, String.mk b)
  | none => none

/-- The last two entries of a segment list, both required nonempty. -/
def lastTwoOf (S : List (List Char)) : Option (List Char × List Char) :=
  match S.reverse with
  | b :: a :: _ => if b = [] ∨ a = [] then none else some (a, b)
  | _ => none

/-- The claim's description of `parseRepo`: after cleaning, the last two
slash-separated segments, required nonempty. -/
def lastTwoSegs (l : List Char) : Option (List Char × List Char) :=
  lastTwoOf (splitSlashL l)

/-- Rejoin a segment list with slashes (the left inverse of `splitSlashL`). -/
def joinWith : List (List Char) → List Char
  | [] => []
  | [g] => g
  | g :: gs => g ++ '/' :: joinWith gs

/-! ## Application state

The `AppState` record of `MobileApp.tsx`, with JS strings-or-null as
`Option String`, the error message as the structured `GhError` it is built
from, and frontmatter as the modelled `Frontmatter` mapping. -/

/-- `Credentials` — `{token, owner, repo}`. -/
structure Credentials where
  token : String
  owner : String
  repo : String
deriving DecidableEq

inductive Screen where
  | login
  | browser
  | editor
deriving DecidableEq

inductive EditorTab where
  | edit
  | preview
  | frontmatter
deriving DecidableEq

structure AppState where
  screen : Screen
  creds : Option Credentials
  loading : Bool
  error : Option GhError
  success : Option String
  files : List RepoFile
  currentFile : Option FileContent
  currentSha : Option String
  editorTab : EditorTab
  body : String
  frontmatter : Frontmatter
  dirty : Bool
  showCommit : Bool
  commitMessage : String
  committing : Bool
deriving DecidableEq

/-! ## Handlers -/

/-- `loadFiles` wraps each recursive listing in `.catch(() => [])`, so a
listing failure (for example a missing content directory) degrades to an
empty list rather than an error. -/
def caughtList (authOk netOk : Bool) (fs : FsNode) (path : String) : List RepoFile :=
  match listFilesRecursiveE authOk netOk fs path with
  | .ok l => l
  | .error _ => []

/-- `loadFiles(creds)` — lists `src/content/pages` and `src/content/posts`
concurrently, each with a catch-to-empty, and stores the concatenation. -/
def loadFiles (authOk netOk : Bool) (fs : FsNode) (s : AppState) : AppState :=
  { s with
    loading := false,
    error := none,
    files := caughtList authOk netOk fs "src/content/pages" ++
             caughtList authOk netOk fs "src/content/posts" }

/-- `openFile(file)` — fetches the local draft and the remote content; a
draft with `savedAt > 0` wins over remote state (session dirty), otherwise
the parsed remote content is shown clean; either way the remote sha is
recorded as the commit baseline.  A failed remote read surfaces the error
and leaves the session where it was. -/
def openFile (authOk netOk : Bool) (fs : FsNode) (ds : DraftStore)
    (file : RepoFile) (s : AppState) : AppState :=
  match s.creds with
  | none => s
  | some _ =>
    let s1 := { s with loading := true, error := none }
    let draft := getDraft ds file.path
    match getFileE authOk netOk fs file.path with
    | .error e => { s1 with error := some e, loading := false }
    | .ok remote =>
      let parsed := parseFile remote.content
      let bfd : String × Frontmatter × Bool :=
        match draft with
        | some d =>
          if d.savedAt > 0 then (d.content, d.frontmatter, true)
          else (parsed.2, parsed.1, false)
        | none => (parsed.2, parsed.1, false)
      { s1 with
        screen := .editor,
        currentFile := some remote,
        currentSha := some remote.sha,
        body := bfd.1,
        frontmatter := bfd.2.1,
        editorTab := .edit,
        dirty := bfd.2.2,
        loading := false,
        commitMessage := "Update " ++ file.name }

/-- The editor's `onBodyChange` handler: `set({ body, dirty: true })`. -/
def onBodyChange (b : String) (s : AppState) : AppState :=
  { s with body := b, dirty := true }

/-- The editor's `onFrontmatterChange` handler:
`set({ frontmatter, dirty: true })`. -/
def onFrontmatterChange (fm : Frontmatter) (s : AppState) : AppState :=
  { s with frontmatter := fm, dirty := true }

/-- The version token a commit submits: `state.currentSha || undefined`
(JS `||`, so the empty string also degrades to `undefined`). -/
def commitShaArg (s : AppState) : Option String :=
  match s.currentSha with
  | some sh => if sh = "" then none else some sh
  | none => none

/-- The result of a commit attempt: the remote tree, the draft store and the
session state afterwards. -/
structure CommitOutcome where
  fs : FsNode
  ds : DraftStore
  state : AppState

/-- `handleCommit()` — serializes the session, writes it with the baseline
version token, and on success removes the draft, sets
`currentSha := result.sha` and clears dirty; on any failure only `error`
and `committing` change.  On a successful write the store assigns the file
the fresh version token `newFileSha`, while `result.sha` — what `putFile`
returns and what becomes the new baseline — is the commit's sha
`newCommitSha`, a different identifier. -/
def handleCommit (authOk netOk : Bool) (newFileSha newCommitSha : String)
    (fs : FsNode) (ds : DraftStore) (s : AppState) : CommitOutcome :=
  match s.creds, s.currentFile with
  | some _, some cf =>
    let s1 := { s with committing := true, error := none }
    let content := serializeFile s.frontmatter s.body
    match putFileE authOk netOk newFileSha newCommitSha fs cf.path content
        (commitShaArg s) with
    | .ok (fs2, retSha) =>
      ⟨fs2, removeDraft ds cf.path,
        { s1 with
          currentSha := some retSha,
          dirty := false,
          showCommit := false,
          committing := false,
          success := some "Committed! Cloudflare will deploy shortly." }⟩
    | .error e => ⟨fs, ds, { s1 with error := some e, committing := false }⟩
  | _, _ => ⟨fs, ds, s⟩

/-- `goBack()` — resets the in-memory session and returns to the browser
(reloading the file list); it performs no draft-store operation, so the
store passes through unchanged. -/
def goBack (authOk netOk : Bool) (fs : FsNode) (ds : DraftStore) (s : AppState) :
    DraftStore × AppState :=
  let s1 := { s with
    screen := .browser,
    currentFile := none,
    currentSha := none,
    body := "",
    frontmatter := [],
    dirty := false,
    editorTab := .edit,
    error := none,
    success := none }
  (ds, match s.creds with
       | some _ => loadFiles authOk netOk fs s1
       | none => s1)

/-! ## Debounced autosave

The autosave `useEffect` re-runs whenever `body`, `frontmatter` or `dirty`
changes: its cleanup cancels the previously scheduled `setTimeout`, and if a
file is open and the session is dirty it schedules a draft write 1000 ms
later, capturing the current body and frontmatter.  The embedding is an
explicit timeline: a session carries at most one pending timer (deadline
plus captured content); an edit first lets any timer whose deadline has
passed fire, then applies the change and reschedules; `savedAt` is
`Date.now()` at the moment the timer fires, which is its deadline.  `log`
is ghost instrumentation recording every autosave write in order. -/

/-- The part of the session the autosave effect reads, plus the timer, the
draft store and a write log. -/
structure AutosaveState where
  body : String
  frontmatter : Frontmatter
  dirty : Bool
  filePath : Option String
  pending : Option (Nat × String × Frontmatter)
  store : DraftStore
  log : List Draft
deriving DecidableEq

/-- An edit event: the editor's body or frontmatter `onChange`. -/
inductive EditEvent where
  | setBody (b : String)
  | setFm (fm : Frontmatter)
deriving DecidableEq

/-- Fire the pending timer if its deadline has passed by time `t`: the
captured content is written to the draft store under the session's path,
timestamped with the fire time. -/
def fireDue (t : Nat) (a : AutosaveState) : AutosaveState :=
  match a.pending, a.filePath with
  | some (dl, b, fm), some p =>
    if dl ≤ t then
      let d : Draft := ⟨p, b, fm, dl⟩
      { a with pending := none, store := saveDraft a.store p d, log := a.log ++ [d] }
    else a
  | _, _ => a

/-- The content change an edit event makes. -/
def applyContent (e : EditEvent) (b : String) (fm : Frontmatter) : String × Frontmatter :=
  match e with
  | .setBody b2 => (b2, fm)
  | .setFm f2 => (b, f2)

/-- Apply one edit at time `t`: any timer already due has fired; the change
lands and sets dirty; the effect re-runs, which cancels the previous timer
and (with a file open and the session now dirty) schedules a write of the
current content for `t + 1000`. -/
def applyEdit (t : Nat) (e : EditEvent) (a : AutosaveState) : AutosaveState :=
  let a1 := fireDue t a
  let p := applyContent e a1.body a1.frontmatter
  let a2 := { a1 with body := p.1, frontmatter := p.2, dirty := true }
  match a2.filePath with
  | some _ => { a2 with pending := some (t + 1000, a2.body, a2.frontmatter) }
  | none => { a2 with pending := none }

/-- Run a chronological list of timed edits. -/
def runEdits (a : AutosaveState) : List (Nat × EditEvent) → AutosaveState
  | [] => a
  | (t, e) :: rest => runEdits (applyEdit t e a) rest

/-- The session as observed at time `T`: any timer due by `T` has fired. -/
def observeAt (T : Nat) (a : AutosaveState) : AutosaveState :=
  fireDue T a

/-- The body and frontmatter after a sequence of edits. -/
def finalContent (b : String) (fm : Frontmatter) : List (Nat × EditEvent) → String × Frontmatter
  | [] => (b, fm)
  | (_, e) :: rest =>
    match applyContent e b fm with
    | (b2, fm2) => finalContent b2 fm2 rest

/-- The time of the last event (`t` if there is none). -/
def lastTime (t : Nat) : List (Nat × EditEvent) → Nat
  | [] => t
  | (t2, _) :: rest => lastTime t2 rest

/-- Event times are non-decreasing, starting at `t`. -/
def chron : Nat → List (Nat × EditEvent) → Prop
  | _, [] => True
  | t, (t2, _) :: rest => t ≤ t2 ∧ chron t2 rest

/-! ## Concrete fixtures

A tiny concrete world — one file `hello.mdx` at the repository root with
version token `sha1`, a logged-in editor session on it, and a saved draft —
used to instantiate the theorems on closed inputs. -/

def wCreds : Credentials := ⟨"tok", "own", "repo"⟩

def wRemote : String := "---\n---\nbody0"

def wFs : FsNode := .dir [("hello.mdx", .file wRemote "sha1")]

def wCf : FileContent := ⟨wRemote, "sha1", "hello.mdx", "base64"⟩

def wFile : RepoFile := ⟨"hello.mdx", "hello.mdx", "sha1", .file⟩

def wState : AppState :=
  ⟨.editor, some wCreds, false, none, none, [], some wCf, some "sha1", .edit,
    "New body", [], true, true, "Update hello.mdx", false⟩

/-- The same session with a baseline token the remote no longer has. -/
def wStale : AppState := { wState with currentSha := some "old" }

def wDraft : Draft := ⟨"hello.mdx", "draft body", [("title", .vStr "T")], 5⟩

def wDs : DraftStore := [("hello.mdx", wDraft)]

def wAuto : AutosaveState := ⟨"old", [], true, some "p", none, [], []⟩

/-- A listing entry whose path exists in no fixture tree. -/
def wMiss : RepoFile := ⟨"missing.mdx", "missing.mdx", "s", .file⟩

/-! ## Draft store lemmas -/

theorem getDraft_removeDraft_self (ds : DraftStore) (p : String) :
    getDraft (removeDraft ds p) p = none := by
  induction ds with
  | nil => rfl
  | cons hd tl ih =>
    obtain ⟨q, d⟩ := hd
    by_cases h : q = p <;> simp [removeDraft, getDraft, h, ih]

theorem getDraft_saveDraft_self (ds : DraftStore) (p : String) (d : Draft) :
    getDraft (saveDraft ds p d) p = some d := by
  simp [saveDraft, getDraft]

/-! ## Commit claims -/

/-- **C1** (code bug, concrete failing run).  A successful commit does clear
dirty and remove the draft, but the baseline does not become the version
token the store now holds for the written file: the store assigns the file
token `blob2`, while `handleCommit` records `result.sha`, which `putFile`
built from `data.commit.sha` — here `commit2`.  The two differ, which is
visible on the spot: publishing a further edit from the very same session
submits `commit2` and is rejected with the 409 conflict although nobody
touched the remote concurrently. -/
theorem commit_sha_baseline_bug :
    (handleCommit true true "blob2" "commit2" wFs wDs wState).state.dirty = false ∧
    getDraft (handleCommit true true "blob2" "commit2" wFs wDs wState).ds
      wCf.path = none ∧
    (handleCommit true true "blob2" "commit2" wFs wDs wState).state.currentSha =
      some "commit2" ∧
    getFileE true true (handleCommit true true "blob2" "commit2" wFs wDs wState).fs
        wCf.path =
      .ok ⟨serializeFile wState.frontmatter wState.body, "blob2", wCf.path,
        "base64"⟩ ∧
    ("commit2" : String) ≠ "blob2" ∧
    (handleCommit true true "blob3" "commit3"
        (handleCommit true true "blob2" "commit2" wFs wDs wState).fs
        (handleCommit true true "blob2" "commit2" wFs wDs wState).ds
        (onBodyChange "Even newer"
          (handleCommit true true "blob2" "commit2" wFs wDs wState).state)).state.error =
      some (.saveFailed wCf.path 409) := by
  refine ⟨?_, ?_, ?_, ?_, ?_, ?_⟩ <;> first | decide | rfl

/-- **C2.** A `commit(message)` whose remote write fails leaves the session
dirty, the draft store exactly as it was, the error surfaced on the session,
and body, frontmatter and baseline version token unchanged (the remote tree
is also untouched). -/
theorem commit_failure_preserves_state
    (authOk netOk : Bool) (newFileSha newCommitSha : String) (fs : FsNode)
    (ds : DraftStore) (s : AppState) (c : Credentials) (cf : FileContent)
    (err : GhError)
    (hc : s.creds = some c) (hf : s.currentFile = some cf) (hd : s.dirty = true)
    (he : putFileE authOk netOk newFileSha newCommitSha fs cf.path
        (serializeFile s.frontmatter s.body) (commitShaArg s) = .error err) :
    (handleCommit authOk netOk newFileSha newCommitSha fs ds s).ds = ds ∧
    (handleCommit authOk netOk newFileSha newCommitSha fs ds s).state.dirty = true ∧
    (handleCommit authOk netOk newFileSha newCommitSha fs ds s).state.error =
      some err ∧
    (handleCommit authOk netOk newFileSha newCommitSha fs ds s).state.body =
      s.body ∧
    (handleCommit authOk netOk newFileSha newCommitSha fs ds s).state.frontmatter =
      s.frontmatter ∧
    (handleCommit authOk netOk newFileSha newCommitSha fs ds s).state.currentSha =
      s.currentSha ∧
    (handleCommit authOk netOk newFileSha newCommitSha fs ds s).fs = fs := by
  refine ⟨?_, ?_, ?_, ?_, ?_, ?_, ?_⟩ <;> simp [handleCommit, hc, hf, he, hd]

/-- **C5.** A commit submitted with a baseline version token that no longer
matches the store's current token for the path is rejected with HTTP 409 —
the spec's ConflictError, distinguishable from the auth, not-found and
network kinds — and the draft store, dirty flag and remote tree are left
unchanged. -/
theorem stale_token_conflict
    (fs : FsNode) (ds : DraftStore) (s : AppState) (c : Credentials)
    (cf : FileContent) (content0 rsha sh newFileSha newCommitSha : String)
    (hc : s.creds = some c) (hf : s.currentFile = some cf)
    (hsha : s.currentSha = some sh) (hne : sh ≠ "")
    (hr : resolve fs cf.path = some (.file content0 rsha)) (hst : sh ≠ rsha) :
    (handleCommit true true newFileSha newCommitSha fs ds s).state.error =
      some (.saveFailed cf.path 409) ∧
    GhError.kind (.saveFailed cf.path 409) = .conflict ∧
    ErrKind.conflict ≠ ErrKind.auth ∧
    ErrKind.conflict ≠ ErrKind.notFound ∧
    ErrKind.conflict ≠ ErrKind.network ∧
    (handleCommit true true newFileSha newCommitSha fs ds s).ds = ds ∧
    (handleCommit true true newFileSha newCommitSha fs ds s).state.dirty =
      s.dirty ∧
    (handleCommit true true newFileSha newCommitSha fs ds s).fs = fs := by
  have harg : commitShaArg s = some sh := by simp [commitShaArg, hsha, hne]
  have hput : putFileE true true newFileSha newCommitSha fs cf.path
      (serializeFile s.frontmatter s.body) (commitShaArg s) =
      .error (.saveFailed cf.path 409) := by
    simp [putFileE, harg, hr, hst]
  refine ⟨?_, ?_, ?_, ?_, ?_, ?_, ?_, ?_⟩ <;>
    simp [handleCommit, hc, hf, hput, GhError.kind]

/-- Witness for C2: the stale-token commit on the concrete session fails and
changes nothing but the surfaced error. -/
theorem commit_failure_preserves_state_witness :
    (wStale.creds = some wCreds ∧ wStale.currentFile = some wCf ∧
      wStale.dirty = true ∧
      putFileE true true "blob2" "commit2" wFs wCf.path
          (serializeFile wStale.frontmatter wStale.body) (commitShaArg wStale) =
        .error (.saveFailed "hello.mdx" 409)) ∧
    ((handleCommit true true "blob2" "commit2" wFs wDs wStale).ds = wDs ∧
      (handleCommit true true "blob2" "commit2" wFs wDs wStale).state.dirty = true ∧
      (handleCommit true true "blob2" "commit2" wFs wDs wStale).state.error =
        some (.saveFailed "hello.mdx" 409) ∧
      (handleCommit true true "blob2" "commit2" wFs wDs wStale).state.body =
        wStale.body ∧
      (handleCommit true true "blob2" "commit2" wFs wDs wStale).state.frontmatter =
        wStale.frontmatter ∧
      (handleCommit true true "blob2" "commit2" wFs wDs wStale).state.currentSha =
        wStale.currentSha ∧
      (handleCommit true true "blob2" "commit2" wFs wDs wStale).fs = wFs) :=
  ⟨⟨rfl, rfl, rfl, rfl⟩,
    commit_failure_preserves_state true true "blob2" "commit2" wFs wDs wStale
      wCreds wCf (.saveFailed "hello.mdx" 409) rfl rfl rfl rfl⟩

/-- Witness for C5: the stale-token commit is surfaced as the 409 conflict
kind on the concrete session. -/
theorem stale_token_conflict_witness :
    (wStale.creds = some wCreds ∧ wStale.currentFile = some wCf ∧
      wStale.currentSha = some "old" ∧ "old" ≠ ("" : String) ∧
      resolve wFs wCf.path = some (.file wRemote "sha1") ∧
      "old" ≠ ("sha1" : String)) ∧
    ((handleCommit true true "blob2" "commit2" wFs wDs wStale).state.error =
      some (.saveFailed wCf.path 409) ∧
      GhError.kind (.saveFailed wCf.path 409) = .conflict ∧
      ErrKind.conflict ≠ ErrKind.auth ∧
      ErrKind.conflict ≠ ErrKind.notFound ∧
      ErrKind.conflict ≠ ErrKind.network ∧
      (handleCommit true true "blob2" "commit2" wFs wDs wStale).ds = wDs ∧
      (handleCommit true true "blob2" "commit2" wFs wDs wStale).state.dirty =
        wStale.dirty ∧
      (handleCommit true true "blob2" "commit2" wFs wDs wStale).fs = wFs) :=
  ⟨⟨rfl, rfl, rfl, by decide, rfl, by decide⟩,
    stale_token_conflict wFs wDs wStale wCreds wCf wRemote "sha1" "old" "blob2"
      "commit2" rfl rfl rfl (by decide) rfl (by decide)⟩

/-! ## Opening files -/

/-- On a successful remote read, `openFile` enters the editor, records the
read file and its sha as baseline, and clears the error — whatever the
draft store holds. -/
theorem openFile_ok_fields
    (fs : FsNode) (ds : DraftStore) (fp : RepoFile) (s : AppState)
    (c : Credentials) (content sha : String)
    (hc : s.creds = some c)
    (hr : resolve fs fp.path = some (.file content sha)) :
    (openFile true true fs ds fp s).currentSha = some sha ∧
    (openFile true true fs ds fp s).currentFile =
      some ⟨content, sha, fp.path, "base64"⟩ ∧
    (openFile true true fs ds fp s).creds = s.creds ∧
    (openFile true true fs ds fp s).screen = .editor ∧
    (openFile true true fs ds fp s).error = none := by
  have hg : getFileE true true fs fp.path = .ok ⟨content, sha, fp.path, "base64"⟩ := by
    simp [getFileE, hr]
  cases hd : getDraft ds fp.path with
  | none => simp [openFile, hc, hg, hd]
  | some d => by_cases hs : d.savedAt > 0 <;> simp [openFile, hc, hg, hd, hs]

/-- A draft with `savedAt > 0` wins on open: its content and frontmatter are
presented and the session starts dirty. -/
theorem openFile_draft_case
    (fs : FsNode) (ds : DraftStore) (fp : RepoFile) (s : AppState)
    (c : Credentials) (content sha : String) (d : Draft)
    (hc : s.creds = some c)
    (hr : resolve fs fp.path = some (.file content sha))
    (hd : getDraft ds fp.path = some d) (hs : d.savedAt > 0) :
    (openFile true true fs ds fp s).body = d.content ∧
    (openFile true true fs ds fp s).frontmatter = d.frontmatter ∧
    (openFile true true fs ds fp s).dirty = true ∧
    (openFile true true fs ds fp s).screen = .editor := by
  have hg : getFileE true true fs fp.path = .ok ⟨content, sha, fp.path, "base64"⟩ := by
    simp [getFileE, hr]
  simp [openFile, hc, hg, hd, hs]

/-- With no draft (or only a `savedAt = 0` placeholder), open presents the
parsed remote content, clean. -/
theorem openFile_clean_case
    (fs : FsNode) (ds : DraftStore) (fp : RepoFile) (s : AppState)
    (c : Credentials) (content sha : String)
    (hc : s.creds = some c)
    (hr : resolve fs fp.path = some (.file content sha))
    (hd : ∀ d, getDraft ds fp.path = some d → d.savedAt = 0) :
    (openFile true true fs ds fp s).body = (parseFile content).2 ∧
    (openFile true true fs ds fp s).frontmatter = (parseFile content).1 ∧
    (openFile true true fs ds fp s).dirty = false ∧
    (openFile true true fs ds fp s).screen = .editor := by
  have hg : getFileE true true fs fp.path = .ok ⟨content, sha, fp.path, "base64"⟩ := by
    simp [getFileE, hr]
  cases hdd : getDraft ds fp.path with
  | none => simp [openFile, hc, hg, hdd]
  | some d =>
    have h0 := hd d hdd
    simp [openFile, hc, hg, hdd, h0]

/-- **C3.** `open(path)`: a stored draft with `savedAt > 0` is presented
with dirty = true regardless of the remote content; with no such draft the
parse of the remote content is presented with dirty = false. -/
theorem open_draft_precedence
    (fs : FsNode) (ds : DraftStore) (fp : RepoFile) (s : AppState)
    (c : Credentials) (content sha : String)
    (hc : s.creds = some c)
    (hr : resolve fs fp.path = some (.file content sha)) :
    (∀ d, getDraft ds fp.path = some d → d.savedAt > 0 →
      (openFile true true fs ds fp s).body = d.content ∧
      (openFile true true fs ds fp s).frontmatter = d.frontmatter ∧
      (openFile true true fs ds fp s).dirty = true ∧
      (openFile true true fs ds fp s).screen = .editor) ∧
    ((∀ d, getDraft ds fp.path = some d → d.savedAt = 0) →
      (openFile true true fs ds fp s).body = (parseFile content).2 ∧
      (openFile true true fs ds fp s).frontmatter = (parseFile content).1 ∧
      (openFile true true fs ds fp s).dirty = false ∧
      (openFile true true fs ds fp s).screen = .editor) :=
  ⟨fun d hd hs => openFile_draft_case fs ds fp s c content sha d hc hr hd hs,
   fun hd => openFile_clean_case fs ds fp s c content sha hc hr hd⟩

/-- Witness for C3: opening the fixture file over its saved draft. -/
theorem open_draft_precedence_witness :
    (wState.creds = some wCreds ∧
      resolve wFs wFile.path = some (.file wRemote "sha1") ∧
      getDraft wDs wFile.path = some wDraft ∧ wDraft.savedAt > 0) ∧
    ((openFile true true wFs wDs wFile wState).body = wDraft.content ∧
      (openFile true true wFs wDs wFile wState).frontmatter = wDraft.frontmatter ∧
      (openFile true true wFs wDs wFile wState).dirty = true ∧
      (openFile true true wFs wDs wFile wState).screen = .editor) :=
  ⟨⟨rfl, rfl, rfl, by decide⟩,
    (open_draft_precedence wFs wDs wFile wState wCreds wRemote "sha1"
        rfl rfl).1 wDraft rfl (by decide)⟩

/-- **C4.** A listing against a missing remote path degrades to an empty
result (the 404 is thrown by `listFiles` but caught by `loadFiles`), while a
single-file read of a missing path is a hard failure: the 404 not-found
error is surfaced on the session and the session does not open. -/
theorem missing_path_listing_vs_read
    (fs : FsNode) (p : String) (hr : resolve fs p = none) :
    caughtList true true fs p = [] ∧
    listFilesRecursiveE true true fs p = .error (.listFailed p 404) ∧
    GhError.kind (.listFailed p 404) = .notFound ∧
    getFileE true true fs p = .error (.getFailed p 404) ∧
    GhError.kind (.getFailed p 404) = .notFound ∧
    (∀ (ds : DraftStore) (fp : RepoFile) (s : AppState) (c : Credentials),
      s.creds = some c → fp.path = p →
      (openFile true true fs ds fp s).error = some (.getFailed p 404) ∧
      (openFile true true fs ds fp s).screen = s.screen ∧
      (openFile true true fs ds fp s).body = s.body ∧
      (openFile true true fs ds fp s).dirty = s.dirty) := by
  refine ⟨?_, ?_, ?_, ?_, ?_, ?_⟩
  · simp [caughtList, listFilesRecursiveE, hr]
  · simp [listFilesRecursiveE, hr]
  · simp [GhError.kind]
  · simp [getFileE, hr]
  · simp [GhError.kind]
  · intro ds fp s c hc hp
    subst hp
    have hg : getFileE true true fs fp.path = .error (.getFailed fp.path 404) := by
      simp [getFileE, hr]
    refine ⟨?_, ?_, ?_, ?_⟩ <;> simp [openFile, hc, hg]

/-- Witness for C4: the fixture tree has no `missing.mdx`. -/
theorem missing_path_listing_vs_read_witness :
    (resolve wFs "missing.mdx" = none) ∧
    (caughtList true true wFs "missing.mdx" = [] ∧
      listFilesRecursiveE true true wFs "missing.mdx" =
        .error (.listFailed "missing.mdx" 404) ∧
      GhError.kind (.listFailed "missing.mdx" 404) = .notFound ∧
      getFileE true true wFs "missing.mdx" =
        .error (.getFailed "missing.mdx" 404) ∧
      GhError.kind (.getFailed "missing.mdx" 404) = .notFound ∧
      ((openFile true true wFs wDs wMiss wState).error =
        some (.getFailed "missing.mdx" 404) ∧
        (openFile true true wFs wDs wMiss wState).screen = wState.screen ∧
        (openFile true true wFs wDs wMiss wState).body = wState.body ∧
        (openFile true true wFs wDs wMiss wState).dirty = wState.dirty)) :=
  ⟨rfl,
    (missing_path_listing_vs_read wFs "missing.mdx" rfl).1,
    (missing_path_listing_vs_read wFs "missing.mdx" rfl).2.1,
    (missing_path_listing_vs_read wFs "missing.mdx" rfl).2.2.1,
    (missing_path_listing_vs_read wFs "missing.mdx" rfl).2.2.2.1,
    (missing_path_listing_vs_read wFs "missing.mdx" rfl).2.2.2.2.1,
    (missing_path_listing_vs_read wFs "missing.mdx" rfl).2.2.2.2.2
      wDs wMiss wState wCreds rfl rfl⟩

/-- **C9.** `goBack()` resets the in-memory session — dirty false, body and
frontmatter cleared, baseline token dropped, back on the browser — but
leaves the persisted draft store untouched, so re-opening the same path
presents the draft again with dirty = true. -/
theorem goBack_preserves_draft
    (fs : FsNode) (ds : DraftStore) (fp : RepoFile) (s : AppState)
    (c : Credentials) (d : Draft) (content sha : String)
    (hc : s.creds = some c)
    (hd : getDraft ds fp.path = some d) (hs : d.savedAt > 0)
    (hr : resolve fs fp.path = some (.file content sha)) :
    (goBack true true fs ds s).1 = ds ∧
    (goBack true true fs ds s).2.dirty = false ∧
    (goBack true true fs ds s).2.body = "" ∧
    (goBack true true fs ds s).2.frontmatter = [] ∧
    (goBack true true fs ds s).2.currentSha = none ∧
    (goBack true true fs ds s).2.currentFile = none ∧
    (goBack true true fs ds s).2.screen = .browser ∧
    (openFile true true fs (goBack true true fs ds s).1 fp
        (goBack true true fs ds s).2).body = d.content ∧
    (openFile true true fs (goBack true true fs ds s).1 fp
        (goBack true true fs ds s).2).frontmatter = d.frontmatter ∧
    (openFile true true fs (goBack true true fs ds s).1 fp
        (goBack true true fs ds s).2).dirty = true ∧
    (openFile true true fs (goBack true true fs ds s).1 fp
        (goBack true true fs ds s).2).screen = .editor := by
  have hstore : (goBack true true fs ds s).1 = ds := by simp [goBack]
  have hcreds : (goBack true true fs ds s).2.creds = some c := by
    simp [goBack, loadFiles, hc]
  have hre := openFile_draft_case fs (goBack true true fs ds s).1 fp
    (goBack true true fs ds s).2 c content sha d hcreds hr (hstore ▸ hd) hs
  refine ⟨hstore, ?_, ?_, ?_, ?_, ?_, ?_, hre.1, hre.2.1, hre.2.2.1, hre.2.2.2⟩ <;>
    simp [goBack, loadFiles, hc]

/-- Witness for C9: going back from the fixture session and re-opening. -/
theorem goBack_preserves_draft_witness :
    (wState.creds = some wCreds ∧ getDraft wDs wFile.path = some wDraft ∧
      wDraft.savedAt > 0 ∧
      resolve wFs wFile.path = some (.file wRemote "sha1")) ∧
    ((goBack true true wFs wDs wState).1 = wDs ∧
      (goBack true true wFs wDs wState).2.dirty = false ∧
      (goBack true true wFs wDs wState).2.body = "" ∧
      (goBack true true wFs wDs wState).2.frontmatter = [] ∧
      (goBack true true wFs wDs wState).2.currentSha = none ∧
      (goBack true true wFs wDs wState).2.currentFile = none ∧
      (goBack true true wFs wDs wState).2.screen = .browser ∧
      (openFile true true wFs (goBack true true wFs wDs wState).1 wFile
          (goBack true true wFs wDs wState).2).body = wDraft.content ∧
      (openFile true true wFs (goBack true true wFs wDs wState).1 wFile
          (goBack true true wFs wDs wState).2).frontmatter = wDraft.frontmatter ∧
      (openFile true true wFs (goBack true true wFs wDs wState).1 wFile
          (goBack true true wFs wDs wState).2).dirty = true ∧
      (openFile true true wFs (goBack true true wFs wDs wState).1 wFile
          (goBack true true wFs wDs wState).2).screen = .editor) :=
  ⟨⟨rfl, rfl, by decide, rfl⟩,
    goBack_preserves_draft wFs wDs wFile wState wCreds wDraft wRemote "sha1"
      rfl rfl (by decide) rfl⟩

/-- **C6** (code bug, concrete failing run).  The first half of the claimed
invariant holds — opening the fixture file records its remote sha `sha1` as
the baseline even though the saved draft is presented, edits leave it
alone, and a commit submits exactly that baseline — but the second half
breaks at the first successful commit: the store then holds the fresh file
token `blob2` for the written file while the session's baseline becomes the
returned `data.commit.sha` value `commit2`, a different identifier.  The
divergence is observable: publishing a further edit from the same session
submits `commit2` and the store rejects it with the 409 conflict although
no concurrent remote change happened. -/
theorem baseline_invariant_commit_bug :
    (openFile true true wFs wDs wFile wState).currentSha = some "sha1" ∧
    (onBodyChange "B" (openFile true true wFs wDs wFile wState)).currentSha =
      some "sha1" ∧
    commitShaArg (onBodyChange "B" (openFile true true wFs wDs wFile wState)) =
      some "sha1" ∧
    (handleCommit true true "blob2" "commit2" wFs wDs
        (onBodyChange "B" (openFile true true wFs wDs wFile wState))).state.currentSha =
      some "commit2" ∧
    getFileE true true
        (handleCommit true true "blob2" "commit2" wFs wDs
          (onBodyChange "B" (openFile true true wFs wDs wFile wState))).fs
        wFile.path =
      .ok ⟨serializeFile [("title", FmValue.vStr "T")] "B", "blob2",
        "hello.mdx", "base64"⟩ ∧
    ("commit2" : String) ≠ "blob2" ∧
    (handleCommit true true "blob3" "commit3"
        (handleCommit true true "blob2" "commit2" wFs wDs
          (onBodyChange "B" (openFile true true wFs wDs wFile wState))).fs
        (handleCommit true true "blob2" "commit2" wFs wDs
          (onBodyChange "B" (openFile true true wFs wDs wFile wState))).ds
        (onBodyChange "C"
          (handleCommit true true "blob2" "commit2" wFs wDs
            (onBodyChange "B" (openFile true true wFs wDs wFile wState))).state)).state.error =
      some (.saveFailed "hello.mdx" 409) := by
  refine ⟨?_, ?_, ?_, ?_, ?_, ?_, ?_⟩ <;> first | decide | rfl

/-! ## Autosave lemmas -/

/-- Firing a due timer touches only the timer, the store and the log; any
write it adds is stamped no later than the observation time. -/
theorem fireDue_proj (t : Nat) (a : AutosaveState) :
    (fireDue t a).filePath = a.filePath ∧
    (fireDue t a).body = a.body ∧
    (fireDue t a).frontmatter = a.frontmatter ∧
    (∀ d ∈ (fireDue t a).log, d ∈ a.log ∨ d.savedAt ≤ t) := by
  rcases hp : a.pending with _ | ⟨dl, bb, ff⟩
  · exact ⟨by simp [fireDue, hp], by simp [fireDue, hp], by simp [fireDue, hp],
      fun d hd => Or.inl (by simpa [fireDue, hp] using hd)⟩
  · rcases hf : a.filePath with _ | pp
    · exact ⟨by simp [fireDue, hp, hf], by simp [fireDue, hp, hf],
        by simp [fireDue, hp, hf],
        fun d hd => Or.inl (by simpa [fireDue, hp, hf] using hd)⟩
    · by_cases h : dl ≤ t
      · refine ⟨by simp [fireDue, hp, hf, h], by simp [fireDue, hp, hf, h],
          by simp [fireDue, hp, hf, h], ?_⟩
        intro d hd
        have hmem : d ∈ a.log ∨ d = ⟨pp, bb, ff, dl⟩ := by
          simpa [fireDue, hp, hf, h] using hd
        rcases hmem with hd2 | rfl
        · exact Or.inl hd2
        · exact Or.inr h
      · exact ⟨by simp [fireDue, hp, hf, h], by simp [fireDue, hp, hf, h],
          by simp [fireDue, hp, hf, h],
          fun d hd => Or.inl (by simpa [fireDue, hp, hf, h] using hd)⟩

/-- An edit keeps the session's path, applies its content change, and only
adds log entries stamped no later than the edit time. -/
theorem applyEdit_proj (t : Nat) (e : EditEvent) (a : AutosaveState) :
    (applyEdit t e a).filePath = a.filePath ∧
    (applyEdit t e a).body = (applyContent e a.body a.frontmatter).1 ∧
    (applyEdit t e a).frontmatter = (applyContent e a.body a.frontmatter).2 ∧
    (∀ d ∈ (applyEdit t e a).log, d ∈ a.log ∨ d.savedAt ≤ t) := by
  obtain ⟨h1, h2, h3, h4⟩ := fireDue_proj t a
  rcases hf : a.filePath with _ | pp <;>
    exact ⟨by simp [applyEdit, h1, h2, h3, hf], by simp [applyEdit, h1, h2, h3, hf],
      by simp [applyEdit, h1, h2, h3, hf],
      fun d hd => h4 d (by simpa [applyEdit, h1, hf] using hd)⟩

/-- Writes all stamped at or before `t` never survive a strictly-after-`t`
filter. -/
theorem filter_after_none (L : List Draft) (t : Nat)
    (h : ∀ d ∈ L, d.savedAt ≤ t) :
    L.filter (fun d => t < d.savedAt) = [] := by
  induction L with
  | nil => rfl
  | cons x xs ih =>
    have hx : ¬ t < x.savedAt := Nat.not_lt.mpr (h x (by simp))
    simp only [List.filter_cons]
    simp [hx, ih (fun d hd => h d (by simp [hd]))]

/-- Core induction for the debounce semantics: from any session state with
a file open, a nonempty chronological edit sequence followed by quiet until
`T ≥ last + 1000` ends with no pending timer, with the draft store holding
exactly the last edited content stamped `last + 1000`, and with exactly that
one autosave write logged after the last edit (writes already logged, or
fired between edits, are stamped no later than the last edit). -/
theorem autosave_run_aux (evs : List (Nat × EditEvent)) :
    ∀ (a : AutosaveState) (p : String) (t T : Nat) (e : EditEvent),
    a.filePath = some p →
    chron t evs →
    lastTime t evs + 1000 ≤ T →
    (∀ d ∈ a.log, d.savedAt ≤ t) →
    getDraft (observeAt T (runEdits a ((t, e) :: evs))).store p =
      some ⟨p, (finalContent a.body a.frontmatter ((t, e) :: evs)).1,
            (finalContent a.body a.frontmatter ((t, e) :: evs)).2,
            lastTime t evs + 1000⟩ ∧
    (observeAt T (runEdits a ((t, e) :: evs))).log.filter
        (fun d => lastTime t evs < d.savedAt) =
      [⟨p, (finalContent a.body a.frontmatter ((t, e) :: evs)).1,
        (finalContent a.body a.frontmatter ((t, e) :: evs)).2,
        lastTime t evs + 1000⟩] ∧
    (observeAt T (runEdits a ((t, e) :: evs))).pending = none := by
  induction evs with
  | nil =>
    intro a p t T e hfp hch hT hlog
    obtain ⟨hf1, hf2, hf3, hf4⟩ := fireDue_proj t a
    have hlogf : ∀ d ∈ (fireDue t a).log, d.savedAt ≤ t := by
      intro d hd
      rcases hf4 d hd with h | h
      · exact hlog d h
      · exact h
    have happ : applyEdit t e a =
        { body := (applyContent e a.body a.frontmatter).1,
          frontmatter := (applyContent e a.body a.frontmatter).2,
          dirty := true, filePath := some p,
          pending := some (t + 1000, (applyContent e a.body a.frontmatter).1,
            (applyContent e a.body a.frontmatter).2),
          store := (fireDue t a).store, log := (fireDue t a).log } := by
      simp [applyEdit, hf1, hf2, hf3, hfp]
    have hle : t + 1000 ≤ T := by simpa [lastTime] using hT
    have hlt : t < t + 1000 := by omega
    have hrun : runEdits a [(t, e)] = applyEdit t e a := rfl
    simp only [hrun, happ, observeAt, lastTime, finalContent]
    simp [fireDue, hle, getDraft_saveDraft_self, List.filter_append,
      filter_after_none _ _ hlogf, hlt, finalContent]
    exact fun d hd => hlogf d hd
  | cons te rest ih =>
    intro a p t T e hfp hch hT hlog
    obtain ⟨t2, e2⟩ := te
    obtain ⟨hle, hch2⟩ := hch
    obtain ⟨ha1, ha2, ha3, ha4⟩ := applyEdit_proj t e a
    have hfp2 : (applyEdit t e a).filePath = some p := by rw [ha1, hfp]
    have hlog2 : ∀ d ∈ (applyEdit t e a).log, d.savedAt ≤ t2 := by
      intro d hd
      rcases ha4 d hd with h | h
      · exact le_trans (hlog d h) hle
      · exact le_trans h hle
    have hT2 : lastTime t2 rest + 1000 ≤ T := by simpa [lastTime] using hT
    have := ih (applyEdit t e a) p t2 T e2 hfp2 hch2 hT2 hlog2
    simpa [runEdits, lastTime, finalContent, ha2, ha3] using this

/-- **C7.** After a nonempty sequence of edits and a quiet period of at
least one second, exactly one autosave write has happened since the last
edit: it stores the full final body and frontmatter under the session's
path, stamped with the fire time (last edit + 1000 ms), the draft store
holds exactly that draft, and no autosave remains pending (each edit having
cancelled and rescheduled the single timer slot). -/
theorem debounced_autosave
    (a : AutosaveState) (p : String) (t T : Nat) (e : EditEvent)
    (evs : List (Nat × EditEvent))
    (hfp : a.filePath = some p) (hlog : a.log = [])
    (hch : chron t evs) (hT : lastTime t evs + 1000 ≤ T) :
    getDraft (observeAt T (runEdits a ((t, e) :: evs))).store p =
      some ⟨p, (finalContent a.body a.frontmatter ((t, e) :: evs)).1,
            (finalContent a.body a.frontmatter ((t, e) :: evs)).2,
            lastTime t evs + 1000⟩ ∧
    (observeAt T (runEdits a ((t, e) :: evs))).log.filter
        (fun d => lastTime t evs < d.savedAt) =
      [⟨p, (finalContent a.body a.frontmatter ((t, e) :: evs)).1,
        (finalContent a.body a.frontmatter ((t, e) :: evs)).2,
        lastTime t evs + 1000⟩] ∧
    (observeAt T (runEdits a ((t, e) :: evs))).pending = none :=
  autosave_run_aux evs a p t T e hfp hch hT
    (by intro d hd; rw [hlog] at hd; cases hd)

/-- Witness for C7: one edit at time 0, observed at 1200 ms. -/
theorem debounced_autosave_witness :
    (wAuto.filePath = some "p" ∧ wAuto.log = [] ∧ chron 0 [] ∧
      lastTime 0 [] + 1000 ≤ 1200) ∧
    (getDraft (observeAt 1200 (runEdits wAuto [(0, .setBody "New body")])).store "p" =
      some ⟨"p", (finalContent wAuto.body wAuto.frontmatter
              [(0, .setBody "New body")]).1,
            (finalContent wAuto.body wAuto.frontmatter
              [(0, .setBody "New body")]).2, lastTime 0 [] + 1000⟩ ∧
      (observeAt 1200 (runEdits wAuto [(0, .setBody "New body")])).log.filter
          (fun d => lastTime 0 [] < d.savedAt) =
        [⟨"p", (finalContent wAuto.body wAuto.frontmatter
                [(0, .setBody "New body")]).1,
          (finalContent wAuto.body wAuto.frontmatter
            [(0, .setBody "New body")]).2, lastTime 0 [] + 1000⟩] ∧
      (observeAt 1200 (runEdits wAuto [(0, .setBody "New body")])).pending = none) :=
  ⟨⟨rfl, rfl, trivial, by decide⟩,
    debounced_autosave wAuto "p" 0 1200 (.setBody "New body") [] rfl rfl
      trivial (by decide)⟩

/-! ## Round-trip lemmas for the frontmatter codec -/

theorem mkToList (s : String) : String.mk s.toList = s := rfl

/-- Decoding a quoted string undoes the escaping, leaving the rest. -/
theorem pq_round (s : List Char) : ∀ rest,
    parseQuotedAux (escL s ++ '"' :: rest) = some (s, rest) := by
  induction s with
  | nil =>
    intro rest
    have h : escL [] ++ '"' :: rest = '"' :: rest := by simp [escL]
    rw [h, parseQuotedAux.eq_def]
    simp
  | cons c cs ih =>
    intro rest
    by_cases h1 : c = '\\'
    · subst h1
      have h : escL ('\\' :: cs) ++ '"' :: rest =
          '\\' :: '\\' :: (escL cs ++ '"' :: rest) := by simp [escL, escCh]
      rw [h, parseQuotedAux.eq_def]
      simp [unescCh, ih]
    · by_cases h2 : c = '\n'
      · subst h2
        have h : escL ('\n' :: cs) ++ '"' :: rest =
            '\\' :: 'n' :: (escL cs ++ '"' :: rest) := by simp [escL, escCh]
        rw [h, parseQuotedAux.eq_def]
        simp [unescCh, ih]
      · by_cases h3 : c = '"'
        · subst h3
          have h : escL ('"' :: cs) ++ '"' :: rest =
              '\\' :: '"' :: (escL cs ++ '"' :: rest) := by simp [escL, escCh]
          rw [h, parseQuotedAux.eq_def]
          simp [unescCh, ih]
        · have hcc : escCh c = [c] := by simp [escCh, h1, h2, h3]
          have h : escL (c :: cs) ++ '"' :: rest =
              c :: (escL cs ++ '"' :: rest) := by simp [escL, hcc]
          rw [h, parseQuotedAux.eq_def]
          simp [h1, h3, ih]

theorem isDigitCh_digitChar (d : Nat) (h : d < 10) :
    isDigitCh (digitChar d) = true := by
  interval_cases d <;> decide

theorem digitVal_digitChar (d : Nat) (h : d < 10) :
    digitVal (digitChar d) = d := by
  interval_cases d <;> decide

/-- Reading digits off a rendered digit run accumulates its value and stops
at the first non-digit. -/
theorem readDigitsAux_append (ds : List Nat) : ∀ (rest : List Char) (acc : Nat),
    (∀ d ∈ ds, d < 10) →
    (∀ c cs2, rest = c :: cs2 → isDigitCh c = false) →
    readDigitsAux (ds.map digitChar ++ rest) acc =
      (ds.foldl (fun a d => a * 10 + d) acc, rest) := by
  induction ds with
  | nil =>
    intro rest acc _ hrest
    cases rest with
    | nil => rfl
    | cons c cs2 =>
      have := hrest c cs2 rfl
      simp [readDigitsAux, this]
  | cons d ds ih =>
    intro rest acc hlt hrest
    have hd : d < 10 := hlt d (by simp)
    simp [readDigitsAux, isDigitCh_digitChar d hd, digitVal_digitChar d hd,
      ih rest (acc * 10 + d) (fun x hx => hlt x (by simp [hx])) hrest]

/-- Folding most-significant-first over reversed base-10 digits recovers the
number. -/
theorem foldl_rev_digits (L : List Nat) : ∀ acc : Nat,
    L.reverse.foldl (fun a d => a * 10 + d) acc =
      acc * 10 ^ L.length + Nat.ofDigits 10 L := by
  induction L with
  | nil => intro acc; simp
  | cons d L ih =>
    intro acc
    simp only [List.reverse_cons, List.foldl_append, List.foldl_cons,
      List.foldl_nil, ih, Nat.ofDigits_cons, List.length_cons]
    ring

/-- Parsing the decimal rendering of `n` gives back `n` when the next
character is not a digit. -/
theorem readNat_natChars (n : Nat) (rest : List Char)
    (hrest : ∀ c cs2, rest = c :: cs2 → isDigitCh c = false) :
    readNat (natChars n ++ rest) = some (n, rest) := by
  by_cases hn : n = 0
  · subst hn
    have h0 : readDigitsAux rest 0 = (0, rest) := by
      simpa using readDigitsAux_append [] rest 0 (by simp) hrest
    have h : natChars 0 ++ rest = '0' :: rest := by simp [natChars]
    rw [h, readNat.eq_def]
    simp [isDigitCh, digitVal, h0]
  · have hdig : ∀ d ∈ (Nat.digits 10 n).reverse, d < 10 := by
      intro d hd
      exact Nat.digits_lt_base (by norm_num) (List.mem_reverse.mp hd)
    have hne : Nat.digits 10 n ≠ [] := Nat.digits_ne_nil_iff_ne_zero.mpr hn
    have hner : (Nat.digits 10 n).reverse ≠ [] := by simpa using hne
    obtain ⟨d0, ds, hds⟩ := List.exists_cons_of_ne_nil hner
    have hd0 : d0 < 10 := hdig d0 (by simp [hds])
    have hfold : ds.foldl (fun a d => a * 10 + d) d0 = n := by
      have h1 : (Nat.digits 10 n).reverse.foldl (fun a d => a * 10 + d) 0 = n := by
        simpa [Nat.ofDigits_digits] using foldl_rev_digits (Nat.digits 10 n) 0
      rw [hds] at h1
      simpa using h1
    have hmap : natChars n = digitChar d0 :: ds.map digitChar := by
      simp [natChars, hn, hds]
    rw [hmap, List.cons_append, readNat.eq_def]
    simp only [isDigitCh_digitChar d0 hd0, if_true, digitVal_digitChar d0 hd0]
    rw [readDigitsAux_append ds rest d0 (fun d hd => hdig d (by simp [hds, hd]))
      hrest, hfold]

/-- On a digit-first input, `parseValue` is number parsing. -/
theorem parseValue_digitFirst (c : Char) (cs : List Char)
    (h : isDigitCh c = true) :
    parseValue (c :: cs) =
      match readNat (c :: cs) with
      | some p => some (.vNum ((p.1 : Nat) : Int), p.2)
      | none => none := by
  simp only [isDigitCh, Bool.or_eq_true, decide_eq_true_eq] at h
  rcases h with ((((((((rfl | rfl) | rfl) | rfl) | rfl) | rfl) | rfl) | rfl) | rfl) | rfl <;>
    · rw [parseValue.eq_def]
      simp [isDigitCh]

/-- A serialized array is at least as long as the element list. -/
theorem arrChars_len (xs : List String) : xs.length ≤ (arrChars xs).length := by
  induction xs with
  | nil => simp [arrChars]
  | cons x ys ih =>
    cases ys with
    | nil => simp [arrChars, quoteChars]
    | cons y t =>
      have h : arrChars (x :: y :: t) =
          quoteChars x.toList ++ ',' :: arrChars (y :: t) := rfl
      have hq : 1 ≤ (quoteChars x.toList).length := by simp [quoteChars]
      rw [h]
      simp only [List.length_append, List.length_cons] at ih ⊢
      omega

/-- Parsing a serialized array recovers the element list. -/
theorem parseArr_round (xs : List String) : ∀ (fuel : Nat) (rest : List Char),
    xs.length < fuel →
    parseArr fuel (arrChars xs ++ ']' :: rest) = some (xs, rest) := by
  induction xs with
  | nil =>
    intro fuel rest hf
    obtain ⟨f, rfl⟩ : ∃ f, fuel = f + 1 := ⟨fuel - 1, by omega⟩
    have h : arrChars [] ++ ']' :: rest = ']' :: rest := by simp [arrChars]
    rw [h, parseArr.eq_def]
    simp
  | cons x ys ih =>
    intro fuel rest hf
    obtain ⟨f, rfl⟩ : ∃ f, fuel = f + 1 := ⟨fuel - 1, by omega⟩
    cases ys with
    | nil =>
      have h : arrChars [x] ++ ']' :: rest =
          '"' :: (escL x.toList ++ '"' :: ']' :: rest) := by
        simp [arrChars, quoteChars]
      rw [h, parseArr.eq_def]
      simp [pq_round, mkToList]
    | cons y t =>
      have h : arrChars (x :: y :: t) ++ ']' :: rest =
          '"' :: (escL x.toList ++ '"' :: ',' :: (arrChars (y :: t) ++ ']' :: rest)) := by
        simp [arrChars, quoteChars]
      rw [h, parseArr.eq_def]
      have hrec : parseArr f (arrChars (y :: t) ++ ']' :: rest) =
          some (y :: t, rest) := ih f rest (by simp at hf ⊢; omega)
      simp [pq_round, hrec, mkToList]

/-- Parsing a serialized value before a newline recovers the value. -/
theorem parseValue_round (v : FmValue) (r : List Char) :
    parseValue (valChars v ++ '\n' :: r) = some (v, '\n' :: r) := by
  cases v with
  | vStr s =>
    have h : valChars (.vStr s) ++ '\n' :: r =
        '"' :: (escL s.toList ++ '"' :: '\n' :: r) := by simp [valChars, quoteChars]
    rw [h, parseValue.eq_def]
    simp [pq_round, mkToList]
  | vNum n =>
    by_cases hn : n < 0
    · obtain ⟨m, rfl⟩ : ∃ m : Nat, n = -(m : Int) := ⟨n.natAbs, by omega⟩
      have hA : (-(m : Int)).natAbs = m := by omega
      have h : valChars (.vNum (-(m : Int))) ++ '\n' :: r =
          '-' :: (natChars m ++ '\n' :: r) := by simp [valChars, intChars, hn, hA]
      rw [h, parseValue.eq_def]
      have hrd : readNat (natChars m ++ '\n' :: r) = some (m, '\n' :: r) :=
        readNat_natChars m ('\n' :: r) (fun c cs2 hc => by cases hc; rfl)
      simp [hrd]
    · have hv : valChars (.vNum n) = natChars n.toNat := by
        simp [valChars, intChars, hn]
      have hrd : readNat (natChars n.toNat ++ '\n' :: r) =
          some (n.toNat, '\n' :: r) :=
        readNat_natChars n.toNat ('\n' :: r)
          (fun c cs2 hc => by cases hc; rfl)
      obtain ⟨c, t2, hct, hdig⟩ :
          ∃ c t2, natChars n.toNat = c :: t2 ∧ isDigitCh c = true := by
        by_cases h0 : n.toNat = 0
        · exact ⟨'0', [], by simp [natChars, h0], by decide⟩
        · have hne : Nat.digits 10 n.toNat ≠ [] :=
            Nat.digits_ne_nil_iff_ne_zero.mpr h0
          have hner : (Nat.digits 10 n.toNat).reverse ≠ [] := by simpa using hne
          obtain ⟨d0, ds, hds⟩ := List.exists_cons_of_ne_nil hner
          have hmem : d0 ∈ Nat.digits 10 n.toNat := by
            rw [← List.mem_reverse, hds]
            simp
          have hd0 : d0 < 10 := Nat.digits_lt_base (by norm_num) hmem
          exact ⟨digitChar d0, ds.map digitChar, by simp [natChars, h0, hds],
            isDigitCh_digitChar d0 hd0⟩
      have h : valChars (.vNum n) ++ '\n' :: r = c :: (t2 ++ '\n' :: r) := by
        simp [hv, hct]
      rw [h, parseValue_digitFirst c (t2 ++ '\n' :: r) hdig]
      have h2 : c :: (t2 ++ '\n' :: r) = natChars n.toNat ++ '\n' :: r := by
        simp [hct]
      rw [h2, hrd]
      simp [Int.toNat_of_nonneg (not_lt.mp hn)]
  | vBool b =>
    cases b <;>
      · rw [parseValue.eq_def]
        simp [valChars]
  | vArr xs =>
    have h : valChars (.vArr xs) ++ '\n' :: r =
        '[' :: (arrChars xs ++ ']' :: '\n' :: r) := by simp [valChars]
    rw [h, parseValue.eq_def]
    have hlen : xs.length < (arrChars xs ++ ']' :: '\n' :: r).length := by
      have := arrChars_len xs
      simp only [List.length_append, List.length_cons]
      omega
    have harr := parseArr_round xs (arrChars xs ++ ']' :: '\n' :: r).length
      ('\n' :: r) hlen
    simp only [List.length_append, List.length_cons] at harr
    simp [harr]

/-- A serialized header is at least as long as its entry list. -/
theorem entriesChars_len (fm : Frontmatter) :
    fm.length ≤ (entriesChars fm).length := by
  induction fm with
  | nil => simp [entriesChars]
  | cons kv fm ih =>
    obtain ⟨k, v⟩ := kv
    have h : entriesChars ((k, v) :: fm) = entryChars k v ++ entriesChars fm := rfl
    have h1 : 1 ≤ (entryChars k v).length := by simp [entryChars, quoteChars]
    rw [h]
    simp only [List.length_append, List.length_cons] at ih ⊢
    omega

/-- Parsing serialized header entries recovers the mapping and leaves the
input after the closing fence. -/
theorem entries_round (fm : Frontmatter) : ∀ (fuel : Nat) (rest : List Char),
    fm.length < fuel →
    parseEntries fuel (entriesChars fm ++ (fence ++ rest)) = some (fm, rest) := by
  induction fm with
  | nil =>
    intro fuel rest hf
    obtain ⟨f, rfl⟩ : ∃ f, fuel = f + 1 := ⟨fuel - 1, by omega⟩
    have h : entriesChars [] ++ (fence ++ rest) =
        '-' :: '-' :: '-' :: '\n' :: rest := by simp [entriesChars, fence]
    rw [h, parseEntries.eq_def]
    simp [fence]
  | cons kv fm ih =>
    obtain ⟨k, v⟩ := kv
    intro fuel rest hf
    obtain ⟨f, rfl⟩ : ∃ f, fuel = f + 1 := ⟨fuel - 1, by omega⟩
    have h : entriesChars ((k, v) :: fm) ++ (fence ++ rest) =
        '"' :: (escL k.toList ++ '"' :: ':' :: ' ' ::
          (valChars v ++ '\n' :: (entriesChars fm ++ (fence ++ rest)))) := by
      simp [entriesChars, entryChars, quoteChars]
    have hrec : parseEntries f (entriesChars fm ++ (fence ++ rest)) =
        some (fm, rest) := ih f rest (by simp at hf; omega)
    rw [h, parseEntries.eq_def]
    simp only [fence, List.cons_append, List.nil_append] at hrec
    simp [fence, pq_round, parseValue_round, hrec, mkToList]

/-- **C8.** The round-trip law: for every frontmatter mapping over the
supported value types (strings, integers, booleans, string arrays) and every
body string, parsing the serialization yields back exactly the mapping and
the body. -/
theorem parse_serialize_round_trip (fm : Frontmatter) (body : String) :
    parseFile (serializeFile fm body) = (fm, body) := by
  have hshape : serializeChars fm body.toList =
      fence ++ (entriesChars fm ++ (fence ++ body.toList)) := by
    simp [serializeChars]
  have hX : (fence ++ (entriesChars fm ++ (fence ++ body.toList))).take 4 =
      fence := by simp [fence]
  have hXd : (fence ++ (entriesChars fm ++ (fence ++ body.toList))).drop 4 =
      entriesChars fm ++ (fence ++ body.toList) := by simp [fence]
  have hlen := entriesChars_len fm
  have hf : fm.length < (entriesChars fm ++ (fence ++ body.toList)).length + 1 := by
    simp only [List.length_append]
    omega
  have he := entries_round fm
    ((entriesChars fm ++ (fence ++ body.toList)).length + 1) body.toList hf
  have hchars : parseFileChars (serializeChars fm body.toList) =
      (fm, body.toList) := by
    rw [hshape]
    unfold parseFileChars
    rw [hX, hXd, he]
    simp
  unfold parseFile
  rw [show (serializeFile fm body).toList = serializeChars fm body.toList from rfl,
    hchars]
  rfl

/-! ## `parseRepo` equivalence lemmas -/

theorem spanNonSlash_append (a : List Char) (r : List Char)
    (ha : ∀ ch ∈ a, ch ≠ '/') :
    spanNonSlash (a ++ '/' :: r) = (a, '/' :: r) := by
  induction a with
  | nil => rw [List.nil_append, spanNonSlash.eq_def]; simp
  | cons c t ih =>
    have hc : c ≠ '/' := ha c (by simp)
    have ht := ih (fun ch hch => ha ch (by simp [hch]))
    rw [List.cons_append, spanNonSlash.eq_def]
    simp [hc, ht]

theorem spanNonSlash_all (l : List Char) (h : ∀ ch ∈ l, ch ≠ '/') :
    spanNonSlash l = (l, []) := by
  induction l with
  | nil => rfl
  | cons c t ih =>
    have hc : c ≠ '/' := h c (by simp)
    have ht := ih (fun ch hch => h ch (by simp [hch]))
    rw [spanNonSlash.eq_def]
    simp [hc, ht]

/-- What a span decomposition always satisfies. -/
theorem spanNonSlash_spec (l : List Char) :
    (spanNonSlash l).1 ++ (spanNonSlash l).2 = l ∧
    (∀ ch ∈ (spanNonSlash l).1, ch ≠ '/') ∧
    ((spanNonSlash l).2 = [] ∨ ∃ r, (spanNonSlash l).2 = '/' :: r) := by
  induction l with
  | nil =>
    rw [show spanNonSlash [] = (([] : List Char), ([] : List Char)) from rfl]
    exact ⟨rfl, by simp, Or.inl rfl⟩
  | cons c t ih =>
    by_cases hc : c = '/'
    · subst hc
      have hgoal : spanNonSlash ('/' :: t) = ([], '/' :: t) := by
        rw [spanNonSlash.eq_def]
        simp
      rw [hgoal]
      exact ⟨by simp, by simp, Or.inr ⟨t, rfl⟩⟩
    · obtain ⟨ih1, ih2, ih3⟩ := ih
      rcases hsp : spanNonSlash t with ⟨p, r⟩
      rw [hsp] at ih1 ih2 ih3
      simp only at ih1 ih2 ih3
      have hgoal : spanNonSlash (c :: t) = (c :: p, r) := by
        rw [spanNonSlash.eq_def]
        simp [hc, hsp]
      rw [hgoal]
      refine ⟨by simp [ih1], ?_, by simpa using ih3⟩
      intro ch hch
      rcases (by simpa using hch : ch = c ∨ ch ∈ p) with rfl | hm
      · exact hc
      · exact ih2 ch hm

/-- A successful anchored capture decomposes the input into two nonempty
slash-free runs around one slash. -/
theorem tryCapture_eq (l a b : List Char) (h : tryCapture l = some (a, b)) :
    l = a ++ '/' :: b ∧ a ≠ [] ∧ b ≠ [] ∧
    (∀ ch ∈ a, ch ≠ '/') ∧ (∀ ch ∈ b, ch ≠ '/') := by
  obtain ⟨hjoin, hnos, hr⟩ := spanNonSlash_spec l
  rcases hsp : spanNonSlash l with ⟨a0, r0⟩
  rw [hsp] at hjoin hnos hr
  unfold tryCapture at h
  rw [hsp] at h
  by_cases ha0 : a0 = []
  · simp [ha0] at h
  · rcases r0 with _ | ⟨c0, r2⟩
    · simp [ha0] at h
    · have hc0 : c0 = '/' := by
        rcases hr with h0 | ⟨r, hr⟩
        · cases h0
        · cases hr; rfl
      subst hc0
      obtain ⟨hjoin2, hnos2, hr2⟩ := spanNonSlash_spec r2
      rcases hsp2 : spanNonSlash r2 with ⟨b0, r3⟩
      rw [hsp2] at hjoin2 hnos2 hr2
      simp only [ha0, if_false, hsp2] at h
      by_cases hb0 : b0 = [] ∨ r3 ≠ []
      · simp [ha0, hb0] at h
      · push_neg at hb0
        obtain ⟨hb0ne, hr3⟩ := hb0
        simp [ha0, hb0ne, hr3] at h
        obtain ⟨rfl, rfl⟩ := h
        rw [hr3] at hjoin2
        simp only [List.append_nil] at hjoin2
        subst hjoin2
        exact ⟨hjoin.symm, ha0, hb0ne, hnos, hnos2⟩

/-- Conversely, an input of exactly that shape is captured. -/
theorem tryCapture_of (a b : List Char) (ha : a ≠ []) (hb : b ≠ [])
    (hano : ∀ ch ∈ a, ch ≠ '/') (hbno : ∀ ch ∈ b, ch ≠ '/') :
    tryCapture (a ++ '/' :: b) = some (a, b) := by
  have h1 : spanNonSlash (a ++ '/' :: b) = (a, '/' :: b) :=
    spanNonSlash_append a b hano
  have h2 : spanNonSlash b = (b, []) := spanNonSlash_all b hbno
  unfold tryCapture
  rw [h1]
  simp [ha, h2, hb]

theorem splitSlashL_ne_nil (l : List Char) : splitSlashL l ≠ [] := by
  cases l with
  | nil => simp [splitSlashL]
  | cons c cs =>
    rw [splitSlashL.eq_def]
    by_cases hc : c = '/'
    · simp [hc]
    · simp only [hc, if_false]
      rcases h : splitSlashL cs with _ | g <;> simp

theorem splitSlashL_cons_slash (l : List Char) :
    splitSlashL ('/' :: l) = [] :: splitSlashL l := by
  rw [splitSlashL.eq_def]
  simp

theorem splitSlashL_cons_ne (c : Char) (l : List Char) (hc : c ≠ '/') :
    ∃ g gs, splitSlashL l = g :: gs ∧ splitSlashL (c :: l) = (c :: g) :: gs := by
  obtain ⟨g, gs, hgs⟩ := List.exists_cons_of_ne_nil (splitSlashL_ne_nil l)
  refine ⟨g, gs, hgs, ?_⟩
  rw [splitSlashL.eq_def]
  simp [hc, hgs]

/-- Every segment a split produces is slash-free. -/
theorem splitSlashL_nonslash (l : List Char) :
    ∀ g ∈ splitSlashL l, ∀ ch ∈ g, ch ≠ '/' := by
  induction l with
  | nil => intro g hg; simp [splitSlashL] at hg; simp [hg]
  | cons c cs ih =>
    by_cases hc : c = '/'
    · subst hc
      rw [splitSlashL_cons_slash]
      intro g hg
      rcases (by simpa using hg : g = [] ∨ g ∈ splitSlashL cs) with rfl | hm
      · simp
      · exact ih g hm
    · obtain ⟨g0, gs, hgs, hcons⟩ := splitSlashL_cons_ne c cs hc
      rw [hcons]
      intro g hg
      rcases (by simpa using hg : g = c :: g0 ∨ g ∈ gs) with rfl | hm
      · intro ch hch
        rcases (by simpa using hch : ch = c ∨ ch ∈ g0) with rfl | hm2
        · exact hc
        · exact ih g0 (by simp [hgs]) ch hm2
      · exact ih g (by simp [hgs, hm])

/-- Splitting after a slash-free prefix and a slash peels one segment. -/
theorem splitSlashL_seg_append (a : List Char) (r : List Char)
    (ha : ∀ ch ∈ a, ch ≠ '/') :
    splitSlashL (a ++ '/' :: r) = a :: splitSlashL r := by
  induction a with
  | nil => simp [splitSlashL_cons_slash]
  | cons c t ih =>
    have hc : c ≠ '/' := ha c (by simp)
    have ht := ih (fun ch hch => ha ch (by simp [hch]))
    rw [List.cons_append, splitSlashL.eq_def]
    simp [hc, ht]

/-- A slash-free list is one segment. -/
theorem splitSlashL_all (l : List Char) (h : ∀ ch ∈ l, ch ≠ '/') :
    splitSlashL l = [l] := by
  induction l with
  | nil => rfl
  | cons c t ih =>
    have hc : c ≠ '/' := h c (by simp)
    have ht := ih (fun ch hch => h ch (by simp [hch]))
    rw [splitSlashL.eq_def]
    simp [hc, ht]

/-- Rejoining the segments restores the input. -/
theorem joinWith_splitSlashL (l : List Char) :
    joinWith (splitSlashL l) = l := by
  induction l with
  | nil => rfl
  | cons c cs ih =>
    by_cases hc : c = '/'
    · subst hc
      rw [splitSlashL_cons_slash]
      obtain ⟨g, gs, hgs⟩ := List.exists_cons_of_ne_nil (splitSlashL_ne_nil cs)
      rw [hgs] at ih ⊢
      simpa [joinWith] using ih
    · obtain ⟨g0, gs, hgs, hcons⟩ := splitSlashL_cons_ne c cs hc
      rw [hcons]
      rw [hgs] at ih
      cases gs with
      | nil => simpa [joinWith] using ih
      | cons g2 t => simpa [joinWith] using ih

/-- Any list is empty, a singleton, or something followed by a final pair. -/
theorem pair_or_small (S : List (List Char)) :
    S = [] ∨ (∃ g, S = [g]) ∨ ∃ S2 a b, S = S2 ++ [a, b] := by
  rcases hS : S.reverse with _ | ⟨b, tl⟩
  · left
    simpa using congrArg List.reverse hS
  · rcases tl with _ | ⟨a, t⟩
    · right; left
      exact ⟨b, by simpa using congrArg List.reverse hS⟩
    · right; right
      refine ⟨t.reverse, a, b, ?_⟩
      have h := congrArg List.reverse hS
      simpa using h

theorem lastTwoOf_append_pair (S : List (List Char)) (a b : List Char) :
    lastTwoOf (S ++ [a, b]) = if b = [] ∨ a = [] then none else some (a, b) := by
  have h : (S ++ [a, b]).reverse = b :: a :: S.reverse := by simp
  rw [lastTwoOf, h]

/-- The left-to-right regex search returns exactly the last two
slash-separated segments (both nonempty) of the input, or nothing. -/
theorem matchScan_eq_lastTwo (l : List Char) : matchScan l = lastTwoSegs l := by
  induction l with
  | nil => rfl
  | cons c cs ih =>
    rcases hta : tryAt (c :: cs) with _ | ⟨a, b⟩
    · have hscan : matchScan (c :: cs) = matchScan cs := by
        simp only [matchScan]
        rw [hta]
      have htc : tryCapture (c :: cs) = none := by
        unfold tryAt at hta
        by_cases hg : (c :: cs).take 11 = ghPrefix
        · rw [if_pos hg] at hta
          rcases hdrop : tryCapture ((c :: cs).drop 11) with _ | p
          · rw [hdrop] at hta
            exact hta
          · rw [hdrop] at hta
            exact absurd hta (by simp)
        · rw [if_neg hg] at hta
          exact hta
      rw [hscan, ih]
      by_cases hc : c = '/'
      · subst hc
        unfold lastTwoSegs
        rw [splitSlashL_cons_slash]
        rcases pair_or_small (splitSlashL cs) with h0 | ⟨g, hg⟩ | ⟨S2, a, b, hS⟩
        · exact absurd h0 (splitSlashL_ne_nil cs)
        · rw [hg]
          simp [lastTwoOf]
        · rw [hS, show ([] : List Char) :: (S2 ++ [a, b]) =
            (([] : List Char) :: S2) ++ [a, b] from rfl,
            lastTwoOf_append_pair, lastTwoOf_append_pair]
      · obtain ⟨g0, gs, hgs, hcons⟩ := splitSlashL_cons_ne c cs hc
        unfold lastTwoSegs
        rw [hcons, hgs]
        rcases pair_or_small gs with rfl | ⟨g2, rfl⟩ | ⟨S2, a, b, rfl⟩
        · simp [lastTwoOf]
        · by_cases hg2 : g2 = []
          · subst hg2
            simp [lastTwoOf]
          · exfalso
            have hjoin := joinWith_splitSlashL cs
            rw [hgs] at hjoin
            have hcs : cs = g0 ++ '/' :: g2 := by
              simpa [joinWith] using hjoin.symm
            have hg0no : ∀ ch ∈ g0, ch ≠ '/' :=
              splitSlashL_nonslash cs g0 (by simp [hgs])
            have hg2no : ∀ ch ∈ g2, ch ≠ '/' :=
              splitSlashL_nonslash cs g2 (by simp [hgs])
            have hcano : ∀ ch ∈ c :: g0, ch ≠ '/' := by
              intro ch hch
              rcases (by simpa using hch : ch = c ∨ ch ∈ g0) with rfl | hm
              · exact hc
              · exact hg0no ch hm
            have hcap2 : tryCapture (c :: cs) = some (c :: g0, g2) := by
              have hshape : c :: cs = (c :: g0) ++ '/' :: g2 := by simp [hcs]
              rw [hshape]
              exact tryCapture_of (c :: g0) g2 (by simp) hg2 hcano hg2no
            rw [hcap2] at htc
            cases htc
        · rw [show g0 :: (S2 ++ [a, b]) = (g0 :: S2) ++ [a, b] from rfl,
            show (c :: g0) :: (S2 ++ [a, b]) = ((c :: g0) :: S2) ++ [a, b] from rfl,
            lastTwoOf_append_pair, lastTwoOf_append_pair]
    · have hscan : matchScan (c :: cs) = some (a, b) := by
        simp only [matchScan]
        rw [hta]
      rw [hscan]
      have hcap : tryCapture (c :: cs) = some (a, b) ∨
          ((c :: cs).take 11 = ghPrefix ∧
            tryCapture ((c :: cs).drop 11) = some (a, b)) := by
        unfold tryAt at hta
        by_cases hg : (c :: cs).take 11 = ghPrefix
        · rw [if_pos hg] at hta
          rcases hdrop : tryCapture ((c :: cs).drop 11) with _ | p
          · rw [hdrop] at hta
            exact Or.inl hta
          · rw [hdrop] at hta
            right
            exact ⟨hg, hta⟩
        · rw [if_neg hg] at hta
          exact Or.inl hta
      unfold lastTwoSegs
      rcases hcap with hcap | ⟨hg, hcap⟩
      · obtain ⟨hshape, ha, hb, hano, hbno⟩ := tryCapture_eq (c :: cs) a b hcap
        rw [hshape, splitSlashL_seg_append a b hano, splitSlashL_all b hbno,
          show (a :: [b] : List (List Char)) = [] ++ [a, b] from rfl,
          lastTwoOf_append_pair]
        simp [ha, hb]
      · obtain ⟨hshape, ha, hb, hano, hbno⟩ :=
          tryCapture_eq ((c :: cs).drop 11) a b hcap
        have hfull : c :: cs = ghPrefix ++ ((c :: cs).drop 11) := by
          conv_lhs => rw [← List.take_append_drop 11 (c :: cs)]
          rw [hg]
        rw [hfull, hshape,
          show ghPrefix ++ (a ++ '/' :: b) = ghSeg ++ '/' :: (a ++ '/' :: b)
            from rfl,
          splitSlashL_seg_append ghSeg (a ++ '/' :: b) (by decide),
          splitSlashL_seg_append a b hano, splitSlashL_all b hbno,
          show (ghSeg :: a :: [b] : List (List Char)) = [ghSeg] ++ [a, b] from rfl,
          lastTwoOf_append_pair]
        simp [ha, hb]

/-- **C10.** `parseRepo` strips one trailing `.git` then one trailing `/`
and returns the last two slash-separated segments of the result as
`{owner, repo}`; it throws (here: `none`) exactly when the cleaned input
does not end in two nonempty slash-free segments separated by a slash —
in particular `"a/b/c"` gives owner `"b"`, repo `"c"`, a full GitHub URL
gives its owner and repo, and a slash-free input is an error. -/
theorem parseRepo_last_two_segments :
    (∀ input : String, parseRepo input =
      match lastTwoSegs (cleanChars input.toList) with
      | some p => some (String.mk p.1, String.mk p.2)
      | none => none) ∧
    parseRepo "a/b/c" = some ("b", "c") ∧
    parseRepo "https://github.com/foo/bar.git" = some ("foo", "bar") ∧
    parseRepo "foobar" = none := by
  refine ⟨fun input => ?_, by decide, by decide, by decide⟩
  unfold parseRepo
  rw [matchScan_eq_lastTwo]
  rcases lastTwoSegs (cleanChars input.toList) with _ | ⟨a2, b2⟩ <;> rfl

end Loomwork
